import Mathlib

/-!
# Plans client (`plans.go`): request construction and transport calls

A shallow embedding of the `PlanClient` operations of `plans.go`.

* Go strings are Lean `String`s; `len(s)` is `String.utf8ByteSize`.
* `uint64` fields are `Nat`s: the code never does arithmetic on them, it only
  compares them with `0` and `100` and prints them, so no wrap-around can occur.
* `url.Values` (`map[string][]string`) is an association list holding one entry
  per key; `Values.lookup` is the map lookup.
* `map[string]string` (`Meta`) is the list of its entries, in the order in which
  `range` visits them; the keys of a Go map are pairwise distinct, and another
  iteration order is a permutation of the list.
* The transport `Api` is an arbitrary state-passing function; `Call` receives the
  pointee of the decode target and returns it, possibly changed, with the error.
-/

namespace Stripe

/-! ## `url.Values` -/

/-- Go's `url.Values`, a `map[string][]string`. -/
abbrev Values := List (String × List String)

namespace Values

/-- Map lookup `v[key]`, `none` when the key is absent. -/
def lookup : Values → String → Option (List String)
  | [], _ => none
  | (k, xs) :: rest, key => if k = key then some xs else lookup rest key

/-- Method `url.Values.Add`: `v[key] = append(v[key], value)`. -/
def Add : Values → String → String → Values
  | [], key, value => [(key, [value])]
  | (k, xs) :: rest, key, value =>
    if k = key then (k, xs ++ [value]) :: rest else (k, xs) :: Add rest key value

/-- The keys of the map. -/
def keys (v : Values) : List String := v.map Prod.fst

/-- Whether `key` is a key of the map (`_, ok := v[key]`). -/
def Has (v : Values) (key : String) : Bool := (lookup v key).isSome

/-- Calls `Add` once for each pair, in list order. -/
def addAll (v : Values) (l : List (String × String)) : Values :=
  l.foldl (fun b kv => Add b kv.1 kv.2) v

end Values

/-! ## Library functions used by `plans.go` -/

/-- Go's `strconv.FormatUint(i, base)`, for bases up to ten. -/
def FormatUint (i : Nat) (base : Nat) : String := (Nat.toDigits base i).asString

/-- The key `fmt.Sprintf("metadata[%v]", k)`. -/
def metadataKey (k : String) : String := "metadata[" ++ k ++ "]"

/-- Go's `strings.HasPrefix(s, pre)`. -/
def HasPrefix (s pre : String) : Bool := pre.data.isPrefixOf s.data

/-! ## Data model -/

abbrev Currency := String

abbrev PlanInternval := String

def Day : PlanInternval := "day"
def Week : PlanInternval := "week"
def Month : PlanInternval := "month"
def Year : PlanInternval := "year"

structure PlanParams where
  Id : String := ""
  Name : String := ""
  Currency : Currency := ""
  Amount : Nat := 0
  Interval : PlanInternval := ""
  IntervalCount : Nat := 0
  TrialPeriod : Nat := 0
  Meta : List (String × String) := []
  Statement : String := ""
  deriving DecidableEq, Repr

/-- Modelled from the spec: the type `Filters` is declared outside `plans.go`.
The spec describes it as "an opaque object capable of appending its own encoded
key-value pairs to the outgoing form body"; the field `f` holds its entries, each
one as the key and the value it encodes to. -/
structure Filters where
  f : List (String × String) := []
  deriving DecidableEq, Repr

/-- Modelled from the spec: the method `Filters.appendTo` is declared outside
`plans.go`; it appends the encoded key-value pair of every entry to the body. -/
def Filters.appendTo (filters : Filters) (values : Values) : Values :=
  Values.addAll values filters.f

structure PlanListParams where
  Filters : Filters := {}
  Start : String := ""
  End : String := ""
  Limit : Nat := 0
  deriving DecidableEq, Repr

structure Plan where
  Id : String := ""
  Live : Bool := false
  Amount : Nat := 0
  Created : Int := 0
  Currency : Currency := ""
  Interval : PlanInternval := ""
  IntervalCount : Nat := 0
  Name : String := ""
  Meta : List (String × String) := []
  TrialPeriod : Nat := 0
  Statement : String := ""
  deriving DecidableEq, Repr

structure PlanList where
  Count : Nat := 0
  More : Bool := false
  Url : String := ""
  Values : List Plan := []
  deriving DecidableEq, Repr

/-! ## The transport -/

/-- The decode targets `plans.go` hands to `Call`: `nil`, a `*Plan`, a `*PlanList`. -/
inductive Target where
  | nil
  | plan
  | planList
  deriving DecidableEq, Repr

/-- What the decode target points to. -/
@[reducible] def Target.Pointee : Target → Type
  | Target.nil => Unit
  | Target.plan => Plan
  | Target.planList => PlanList

/-- The interface `Api`: `Call(method, path, token, body, v) error`, over a transport
state `σ` and errors `ε`. A `nil` body is `none`; a `nil` error is `none`. The call
may write to the decode target, whose new content is returned. -/
structure Api (σ ε : Type) where
  Call : String → String → String → Option Values → (t : Target) → t.Pointee → σ →
    Option ε × t.Pointee × σ

/-- One invocation of `Call`, as seen by the transport. -/
structure CallRecord where
  method : String
  path : String
  token : String
  body : Option Values
  target : Target
  deriving DecidableEq, Repr

/-- The transport `api` with a journal of the invocations of `Call` in front of its
state; results are those of `api`. -/
def Api.logged {σ ε : Type} (api : Api σ ε) : Api (List CallRecord × σ) ε where
  Call method path token body t v st :=
    let r := api.Call method path token body t v st.2
    (r.1, r.2.1, (st.1 ++ [CallRecord.mk method path token body t], r.2.2))

structure PlanClient (σ ε : Type) where
  api : Api σ ε
  token : String

/-! ## The operations -/

/-- The body built by `PlanClient.Create` (plans.go, lines 61-83). -/
def CreateBody (params : PlanParams) : Values :=
  let body : Values := [
    ("id", [params.Id]),
    ("name", [params.Name]),
    ("amount", [FormatUint params.Amount 10]),
    ("currency", [params.Currency]),
    ("interval", [params.Interval])]
  let body := if params.IntervalCount > 0 then
    Values.Add body "interval_count" (FormatUint params.IntervalCount 10) else body
  let body := if params.TrialPeriod > 0 then
    Values.Add body "trial_period_days" (FormatUint params.TrialPeriod 10) else body
  let body := if params.Statement.utf8ByteSize > 0 then
    Values.Add body "statement_description" params.Statement else body
  params.Meta.foldl (fun b kv => Values.Add b (metadataKey kv.1) kv.2) body

/-- `PlanClient.Create`, for a non-nil `params`: the plan and the error, then the
state of the transport. -/
def PlanClient.Create {σ ε : Type} (c : PlanClient σ ε) (params : PlanParams) (s : σ) :
    (Plan × Option ε) × σ :=
  let body := CreateBody params
  let plan : Plan := {}
  let r := c.api.Call "POST" "/plans" c.token (some body) Target.plan plan s
  ((r.2.1, r.1), r.2.2)

/-- `PlanClient.Get`. -/
def PlanClient.Get {σ ε : Type} (c : PlanClient σ ε) (id : String) (s : σ) :
    (Plan × Option ε) × σ :=
  let plan : Plan := {}
  let r := c.api.Call "GET" ("/plans/" ++ id) c.token none Target.plan plan s
  ((r.2.1, r.1), r.2.2)

/-- The body built by `PlanClient.Update` (plans.go, lines 99-111). -/
def UpdateBody (params : PlanParams) : Values :=
  let body : Values := []
  let body := if params.Name.utf8ByteSize > 0 then
    Values.Add body "name" params.Name else body
  let body := if params.Statement.utf8ByteSize > 0 then
    Values.Add body "statement_description" params.Statement else body
  params.Meta.foldl (fun b kv => Values.Add b (metadataKey kv.1) kv.2) body

/-- `PlanClient.Update`, for a non-nil `params`. -/
def PlanClient.Update {σ ε : Type} (c : PlanClient σ ε) (id : String) (params : PlanParams)
    (s : σ) : (Plan × Option ε) × σ :=
  let body := UpdateBody params
  let plan : Plan := {}
  let r := c.api.Call "POST" ("/plans/" ++ id) c.token (some body) Target.plan plan s
  ((r.2.1, r.1), r.2.2)

/-- `PlanClient.Delete`: the error, then the state of the transport. -/
def PlanClient.Delete {σ ε : Type} (c : PlanClient σ ε) (id : String) (s : σ) :
    Option ε × σ :=
  let r := c.api.Call "DELETE" ("/plans/" ++ id) c.token none Target.nil () s
  (r.1, r.2.2)

/-- The body built by `PlanClient.List` and the caller's `params` as the function
leaves them (plans.go, lines 124-146); `none` is the nil pointer. -/
def ListBody (params : Option PlanListParams) : Values × Option PlanListParams :=
  let body : Values := []
  match params with
  | none => (body, none)
  | some params =>
    let body := if params.Filters.f.length > 0 then params.Filters.appendTo body else body
    let body := if params.Start.utf8ByteSize > 0 then
      Values.Add body "starting_after" params.Start else body
    let body := if params.End.utf8ByteSize > 0 then
      Values.Add body "ending_before" params.End else body
    if params.Limit > 0 then
      let params := if params.Limit > 100 then { params with Limit := 100 } else params
      (Values.Add body "limit" (FormatUint params.Limit 10), some params)
    else
      (body, some params)

/-- `PlanClient.List`: the list and the error, then the caller's `params` after the
call, then the state of the transport. -/
def PlanClient.List {σ ε : Type} (c : PlanClient σ ε) (params : Option PlanListParams)
    (s : σ) : (PlanList × Option ε) × Option PlanListParams × σ :=
  let b := ListBody params
  let list : PlanList := {}
  let r := c.api.Call "GET" "/plans" c.token (some b.1) Target.planList list s
  ((r.2.1, r.1), b.2, r.2.2)

/-! ## Auxiliary definitions and example inputs -/

/-- The values the pairs of `l` carry under `key`, in list order. -/
def valuesFor (l : List (String × String)) (key : String) : List String :=
  (l.filter (fun kv => kv.1 = key)).map Prod.snd

/-- The entries of a metadata map as the pairs `Create` and `Update` add for them. -/
def metadataPairs (m : List (String × String)) : List (String × String) :=
  m.map (fun kv => (metadataKey kv.1, kv.2))

/-- The map entry that holds the values `l`: no entry when there are none. -/
def entryOf (l : List String) : Option (List String) := if l = [] then none else some l

/-- The plan of the spec's round-trip example, with every optional field set. -/
def goldPlanFull : PlanParams :=
  { Id := "gold", Name := "Gold Plan", Currency := "usd", Amount := 1000, Interval := Month,
    IntervalCount := 3, TrialPeriod := 14, Meta := [("tier", "1"), ("", "")],
    Statement := "GOLD" }

/-- The plan of the spec's round-trip example. -/
def goldPlan : PlanParams :=
  { Id := "gold", Name := "Gold Plan", Currency := "usd", Amount := 1000, Interval := Month }

/-- An update that sets the statement, and also fields `Update` must not send. -/
def statementOnly : PlanParams :=
  { Statement := "NEW", Id := "gold", Currency := "usd", Amount := 1000, Interval := Month,
    IntervalCount := 2, TrialPeriod := 7 }

/-- List parameters with no limit of their own and a filter that encodes to `limit=5`. -/
def limitFilter : PlanListParams := { Filters := { f := [("limit", "5")] } }

/-- List parameters with no cursor of their own and a filter that encodes to
`starting_after=x`. -/
def cursorFilter : PlanListParams := { Filters := { f := [("starting_after", "x")] } }

/-! ## Facts about `url.Values` -/

namespace Values

theorem lookup_Add (v : Values) (key value key' : String) :
    lookup (Add v key value) key' =
      if key = key' then some ((lookup v key).getD [] ++ [value]) else lookup v key' := by
  induction v with
  | nil => simp [Add, lookup]
  | cons e rest ih =>
    obtain ⟨k, xs⟩ := e
    by_cases h : k = key
    · subst h
      by_cases h' : k = key' <;> simp [Add, lookup, h']
    · by_cases h' : key = key'
      · subst h'
        simp [Add, lookup, h, ih]
      · by_cases h'' : k = key'
        · subst h''
          simp [Add, lookup, h, h']
        · simp [Add, lookup, h, h', h'', ih]

theorem addAll_cons (v : Values) (kv : String × String) (l : List (String × String)) :
    addAll v (kv :: l) = addAll (Add v kv.1 kv.2) l := rfl

theorem lookup_addAll (l : List (String × String)) (v : Values) (key : String) :
    lookup (addAll v l) key =
      if valuesFor l key = [] then lookup v key
      else some ((lookup v key).getD [] ++ valuesFor l key) := by
  induction l generalizing v with
  | nil => simp [addAll, valuesFor]
  | cons kv l ih =>
    rw [addAll_cons, ih, lookup_Add]
    by_cases h : kv.1 = key
    · have hv : valuesFor (kv :: l) key = kv.2 :: valuesFor l key := by
        simp [valuesFor, h]
      rw [hv]
      subst h
      by_cases hl : valuesFor l kv.1 = [] <;> simp [hl]
    · have hv : valuesFor (kv :: l) key = valuesFor l key := by
        simp [valuesFor, h]
      rw [hv]
      simp [h]

end Values

/-! ## Facts about strings and keys -/

theorem utf8ByteSize_go_pos (c : Char) (cs : List Char) :
    0 < String.utf8ByteSize.go (c :: cs) := by
  have := Char.utf8Size_pos c
  simp only [String.utf8ByteSize.go]
  omega

/-- In Go terms: `len(s) > 0` exactly when `s` is not the empty string. -/
theorem utf8ByteSize_pos_iff (s : String) : s.utf8ByteSize > 0 ↔ s ≠ "" := by
  obtain ⟨l⟩ := s
  cases l with
  | nil => simp [String.utf8ByteSize, String.utf8ByteSize.go]
  | cons c cs =>
    constructor
    · intro _ h
      have := congrArg String.data h
      simp at this
    · intro _
      exact utf8ByteSize_go_pos c cs

theorem metadataKey_data (k : String) :
    (metadataKey k).data = "metadata[".data ++ (k.data ++ "]".data) := by
  simp [metadataKey]

theorem metadataKey_injective {k k' : String} (h : metadataKey k = metadataKey k') : k = k' := by
  have h1 := congrArg String.data h
  rw [metadataKey_data, metadataKey_data] at h1
  have h2 := List.append_cancel_right (List.append_cancel_left h1)
  exact String.ext h2

theorem hasPrefix_metadataKey (k : String) : HasPrefix (metadataKey k) "metadata[" = true := by
  unfold HasPrefix
  rw [List.isPrefixOf_iff_prefix, metadataKey_data]
  exact List.prefix_append _ _

theorem metadataKey_ne_of_not_hasPrefix {key : String} (h : HasPrefix key "metadata[" = false)
    (k : String) : metadataKey k ≠ key := by
  intro hk
  rw [← hk, hasPrefix_metadataKey] at h
  exact Bool.noConfusion h

theorem valuesFor_metadataPairs_key (m : List (String × String)) (k : String) :
    valuesFor (metadataPairs m) (metadataKey k) = valuesFor m k := by
  induction m with
  | nil => rfl
  | cons kv m ih =>
    simp only [valuesFor, metadataPairs] at ih ⊢
    by_cases h : kv.1 = k
    · simp [h, ih]
    · have h' : ¬ metadataKey kv.1 = metadataKey k := fun e => h (metadataKey_injective e)
      simp [h, h', ih]

theorem valuesFor_eq_nil_iff (l : List (String × String)) (key : String) :
    valuesFor l key = [] ↔ ∀ kv ∈ l, kv.1 ≠ key := by
  simp [valuesFor, List.filter_eq_nil_iff]

theorem valuesFor_metadataPairs_ne_nil {m : List (String × String)} {key : String}
    (h : valuesFor (metadataPairs m) key ≠ []) : ∃ kv ∈ m, key = metadataKey kv.1 := by
  rw [Ne, valuesFor_eq_nil_iff] at h
  simp only [metadataPairs, List.mem_map, not_forall] at h
  obtain ⟨kv', ⟨kv, hm, rfl⟩, hk⟩ := h
  exact ⟨kv, hm, (not_not.mp hk).symm⟩

theorem valuesFor_metadataPairs_of_not_hasPrefix (m : List (String × String)) (key : String)
    (h : HasPrefix key "metadata[" = false) : valuesFor (metadataPairs m) key = [] := by
  by_contra hne
  obtain ⟨kv, _, hk⟩ := valuesFor_metadataPairs_ne_nil hne
  exact metadataKey_ne_of_not_hasPrefix h kv.1 hk.symm

theorem valuesFor_of_nodup {m : List (String × String)} (hm : (m.map Prod.fst).Nodup)
    {k v : String} (h : (k, v) ∈ m) : valuesFor m k = [v] := by
  induction m with
  | nil => simp at h
  | cons kv m ih =>
    rw [List.map_cons, List.nodup_cons] at hm
    rcases List.mem_cons.mp h with h | h
    · subst h
      have hn : valuesFor m k = [] := by
        rw [valuesFor_eq_nil_iff]
        intro kv hkv e
        exact hm.1 (List.mem_map.mpr ⟨kv, hkv, e⟩)
      simp only [valuesFor] at hn ⊢
      simp [hn]
    · have hne : kv.1 ≠ k := by
        intro e
        exact hm.1 (List.mem_map.mpr ⟨(k, v), h, e.symm⟩)
      have := ih hm.2 h
      simp only [valuesFor] at this ⊢
      simp [hne, this]

theorem valuesFor_perm {m m' : List (String × String)} (hp : m'.Perm m)
    (hm : (m.map Prod.fst).Nodup) (key : String) : valuesFor m' key = valuesFor m key := by
  have hm' : (m'.map Prod.fst).Nodup := (hp.map Prod.fst).nodup_iff.mpr hm
  by_cases h : ∃ kv ∈ m, kv.1 = key
  · obtain ⟨⟨k, v⟩, hkv, rfl⟩ := h
    rw [valuesFor_of_nodup hm hkv, valuesFor_of_nodup hm' (hp.mem_iff.mpr hkv)]
  · have h1 : valuesFor m key = [] := by
      rw [valuesFor_eq_nil_iff]
      intro kv hkv e
      exact h ⟨kv, hkv, e⟩
    have h2 : valuesFor m' key = [] := by
      rw [valuesFor_eq_nil_iff]
      intro kv hkv e
      exact h ⟨kv, hp.mem_iff.mp hkv, e⟩
    rw [h1, h2]

theorem foldl_metadata (m : List (String × String)) (body : Values) :
    m.foldl (fun b kv => Values.Add b (metadataKey kv.1) kv.2) body =
      Values.addAll body (metadataPairs m) := by
  simp [Values.addAll, metadataPairs, List.foldl_map]

/-! ## The bodies, key by key -/

/-- A key that starts with `metadata[` is none of the keys the operations spell out. -/
theorem ne_fixed_of_hasPrefix {key : String} (h : HasPrefix key "metadata[" = true) :
    "id" ≠ key ∧ "name" ≠ key ∧ "amount" ≠ key ∧ "currency" ≠ key ∧ "interval" ≠ key ∧
    "interval_count" ≠ key ∧ "trial_period_days" ≠ key ∧ "statement_description" ≠ key ∧
    "starting_after" ≠ key ∧ "ending_before" ≠ key ∧ "limit" ≠ key := by
  refine ⟨?_, ?_, ?_, ?_, ?_, ?_, ?_, ?_, ?_, ?_, ?_⟩ <;>
  · intro e
    subst e
    revert h
    decide

theorem Values.lookup_cond_Add (c : Prop) [Decidable c] (v : Values) (k x key : String) :
    Values.lookup (if c then Values.Add v k x else v) key =
      if c ∧ k = key then some ((Values.lookup v k).getD [] ++ [x]) else Values.lookup v key := by
  by_cases hc : c <;> simp [hc, Values.lookup_Add]

/-- What `Create` stores under a key that does not start with `metadata[`. -/
theorem lookup_CreateBody_plain (p : PlanParams) (key : String)
    (h : HasPrefix key "metadata[" = false) :
    Values.lookup (CreateBody p) key =
      if "id" = key then some [p.Id]
      else if "name" = key then some [p.Name]
      else if "amount" = key then some [FormatUint p.Amount 10]
      else if "currency" = key then some [p.Currency]
      else if "interval" = key then some [p.Interval]
      else if "interval_count" = key then
        (if p.IntervalCount > 0 then some [FormatUint p.IntervalCount 10] else none)
      else if "trial_period_days" = key then
        (if p.TrialPeriod > 0 then some [FormatUint p.TrialPeriod 10] else none)
      else if "statement_description" = key then
        (if p.Statement ≠ "" then some [p.Statement] else none)
      else none := by
  unfold CreateBody
  simp only [foldl_metadata, Values.lookup_addAll,
    valuesFor_metadataPairs_of_not_hasPrefix _ _ h, if_true, Values.lookup_cond_Add]
  simp only [Values.lookup, utf8ByteSize_pos_iff]
  simp only [String.reduceEq, and_false, if_false, Option.getD_none, List.nil_append]
  by_cases k0 : "id" = key
  · subst k0
    simp
  by_cases k1 : "name" = key
  · subst k1
    simp
  by_cases k2 : "amount" = key
  · subst k2
    simp
  by_cases k3 : "currency" = key
  · subst k3
    simp
  by_cases k4 : "interval" = key
  · subst k4
    simp
  by_cases k5 : "interval_count" = key
  · subst k5
    simp
  by_cases k6 : "trial_period_days" = key
  · subst k6
    simp
  by_cases k7 : "statement_description" = key
  · subst k7
    simp
  simp [k0, k1, k2, k3, k4, k5, k6, k7]

/-- What `Create` stores under a key that starts with `metadata[`. -/
theorem lookup_CreateBody_metadata (p : PlanParams) (key : String)
    (h : HasPrefix key "metadata[" = true) :
    Values.lookup (CreateBody p) key =
      if valuesFor (metadataPairs p.Meta) key = [] then none
      else some (valuesFor (metadataPairs p.Meta) key) := by
  obtain ⟨k0, k1, k2, k3, k4, k5, k6, k7, -, -, -⟩ := ne_fixed_of_hasPrefix h
  unfold CreateBody
  simp only [foldl_metadata, Values.lookup_addAll, Values.lookup_cond_Add, Values.lookup]
  simp [k0, k1, k2, k3, k4, k5, k6, k7]

/-- What `Update` stores under a key that does not start with `metadata[`. -/
theorem lookup_UpdateBody_plain (p : PlanParams) (key : String)
    (h : HasPrefix key "metadata[" = false) :
    Values.lookup (UpdateBody p) key =
      if "name" = key then (if p.Name ≠ "" then some [p.Name] else none)
      else if "statement_description" = key then
        (if p.Statement ≠ "" then some [p.Statement] else none)
      else none := by
  unfold UpdateBody
  simp only [foldl_metadata, Values.lookup_addAll,
    valuesFor_metadataPairs_of_not_hasPrefix _ _ h, if_true, Values.lookup_cond_Add]
  simp only [Values.lookup, utf8ByteSize_pos_iff]
  simp only [String.reduceEq, and_false, if_false, Option.getD_none, List.nil_append]
  by_cases k0 : "name" = key
  · subst k0
    simp
  by_cases k1 : "statement_description" = key
  · subst k1
    simp
  simp [k0, k1]

/-- What `Update` stores under a key that starts with `metadata[`. -/
theorem lookup_UpdateBody_metadata (p : PlanParams) (key : String)
    (h : HasPrefix key "metadata[" = true) :
    Values.lookup (UpdateBody p) key =
      if valuesFor (metadataPairs p.Meta) key = [] then none
      else some (valuesFor (metadataPairs p.Meta) key) := by
  obtain ⟨-, k1, -, -, -, -, -, k7, -, -, -⟩ := ne_fixed_of_hasPrefix h
  unfold UpdateBody
  simp only [foldl_metadata, Values.lookup_addAll, Values.lookup_cond_Add, Values.lookup]
  simp [k1, k7]

/-- The body and the parameters `List` leaves behind, for a non-nil `params`. -/
theorem ListBody_some (p : PlanListParams) :
    ListBody (some p) =
      ((if p.Limit > 0 then
          Values.Add
            (if p.End.utf8ByteSize > 0 then
              Values.Add
                (if p.Start.utf8ByteSize > 0 then
                  Values.Add (Values.addAll [] p.Filters.f) "starting_after" p.Start
                else Values.addAll [] p.Filters.f)
                "ending_before" p.End
            else
              (if p.Start.utf8ByteSize > 0 then
                Values.Add (Values.addAll [] p.Filters.f) "starting_after" p.Start
              else Values.addAll [] p.Filters.f))
            "limit" (FormatUint (min p.Limit 100) 10)
        else
          (if p.End.utf8ByteSize > 0 then
              Values.Add
                (if p.Start.utf8ByteSize > 0 then
                  Values.Add (Values.addAll [] p.Filters.f) "starting_after" p.Start
                else Values.addAll [] p.Filters.f)
                "ending_before" p.End
            else
              (if p.Start.utf8ByteSize > 0 then
                Values.Add (Values.addAll [] p.Filters.f) "starting_after" p.Start
              else Values.addAll [] p.Filters.f))),
        some { p with Limit := min p.Limit 100 }) := by
  have hf : (if p.Filters.f.length > 0 then p.Filters.appendTo [] else ([] : Values)) =
      Values.addAll [] p.Filters.f := by
    cases hfl : p.Filters.f with
    | nil => simp [Values.addAll]
    | cons a l => simp [Filters.appendTo, hfl]
  obtain ⟨filters, start, stop, limit⟩ := p
  simp only [ListBody] at hf ⊢
  rw [hf]
  by_cases h0 : limit > 0
  · by_cases h1 : limit > 100
    · have hm : min limit 100 = 100 := by omega
      simp [h0, h1, hm]
    · have hm : min limit 100 = limit := by omega
      simp [h0, h1, hm]
  · have hm : min limit 100 = limit := by omega
    simp [h0, hm]

theorem entryOf_getD (l : List String) : (entryOf l).getD [] = l := by
  unfold entryOf
  by_cases h : l = [] <;> simp [h]

theorem lookup_addAll_entryOf {v : Values} {key : String} {a : List String}
    (h : Values.lookup v key = entryOf a) (l : List (String × String)) :
    Values.lookup (Values.addAll v l) key = entryOf (a ++ valuesFor l key) := by
  rw [Values.lookup_addAll, h, entryOf_getD]
  by_cases hl : valuesFor l key = []
  · simp [hl]
  · simp [hl, entryOf]

theorem lookup_cond_Add_entryOf {v : Values} {key : String} {a : List String}
    (h : Values.lookup v key = entryOf a) (c : Prop) [Decidable c] (k x : String) :
    Values.lookup (if c then Values.Add v k x else v) key =
      entryOf (a ++ if c ∧ k = key then [x] else []) := by
  rw [Values.lookup_cond_Add]
  by_cases hc : c ∧ k = key
  · obtain ⟨hc1, rfl⟩ := hc
    rw [h, entryOf_getD]
    simp [hc1, entryOf]
  · simp [hc, h]

/-- The values `List` sends under `key`: those the filters append, then its own. -/
theorem lookup_ListBody (p : PlanListParams) (key : String) :
    Values.lookup (ListBody (some p)).1 key =
      entryOf (valuesFor p.Filters.f key
        ++ (if p.Start ≠ "" ∧ "starting_after" = key then [p.Start] else [])
        ++ (if p.End ≠ "" ∧ "ending_before" = key then [p.End] else [])
        ++ (if p.Limit > 0 ∧ "limit" = key then [FormatUint (min p.Limit 100) 10] else [])) := by
  rw [ListBody_some]
  have h0 : Values.lookup (Values.addAll [] p.Filters.f) key =
      entryOf ([] ++ valuesFor p.Filters.f key) :=
    lookup_addAll_entryOf (v := []) (a := []) rfl p.Filters.f
  have h1 := lookup_cond_Add_entryOf h0 (p.Start.utf8ByteSize > 0) "starting_after" p.Start
  have h2 := lookup_cond_Add_entryOf h1 (p.End.utf8ByteSize > 0) "ending_before" p.End
  have h3 := lookup_cond_Add_entryOf h2 (p.Limit > 0) "limit" (FormatUint (min p.Limit 100) 10)
  simp only [utf8ByteSize_pos_iff, List.nil_append] at h1 h2 h3 ⊢
  by_cases hl : p.Limit > 0
  · simp only [hl, if_true, true_and] at h3 ⊢
    exact h3
  · simp only [hl, if_false, false_and, List.append_nil] at h3 ⊢
    exact h3

theorem ListBody_params (p : PlanListParams) :
    (ListBody (some p)).2 = some { p with Limit := min p.Limit 100 } := by
  rw [ListBody_some]

theorem Values.mem_keys_iff (v : Values) (key : String) :
    key ∈ Values.keys v ↔ Values.Has v key = true := by
  induction v with
  | nil => simp [Values.keys, Values.Has, Values.lookup]
  | cons e rest ih =>
    obtain ⟨k, xs⟩ := e
    simp only [Values.keys, Values.Has] at ih
    by_cases h : k = key
    · simp [Values.keys, Values.Has, Values.lookup, h]
    · have h' : ¬ key = k := fun e => h e.symm
      simp [Values.keys, Values.Has, Values.lookup, h, h', ih]

theorem FormatUint_ten (n : Nat) : FormatUint n 10 = Nat.repr n := rfl

theorem valuesFor_metadataPairs_ne_nil_iff (m : List (String × String)) (key : String) :
    valuesFor (metadataPairs m) key ≠ [] ↔ ∃ kv ∈ m, key = metadataKey kv.1 := by
  constructor
  · exact valuesFor_metadataPairs_ne_nil
  · rintro ⟨kv, hkv, rfl⟩ h
    rw [valuesFor_eq_nil_iff] at h
    exact h (metadataKey kv.1, kv.2) (List.mem_map.mpr ⟨kv, hkv, rfl⟩) rfl

/-! ## The bodies are maps: no key occurs twice -/

theorem Values.keys_Add (v : Values) (key value : String) :
    Values.keys (Values.Add v key value) =
      if key ∈ Values.keys v then Values.keys v else Values.keys v ++ [key] := by
  induction v with
  | nil => simp [Values.keys, Values.Add]
  | cons e rest ih =>
    obtain ⟨k, xs⟩ := e
    simp only [Values.keys] at ih
    by_cases h : k = key
    · simp [Values.keys, Values.Add, h]
    · have h' : ¬ key = k := fun e => h e.symm
      by_cases hr : key ∈ List.map Prod.fst rest
      · simp [Values.keys, Values.Add, h, h', ih, hr]
      · simp [Values.keys, Values.Add, h, h', ih, hr]

theorem Values.nodup_keys_Add {v : Values} (h : (Values.keys v).Nodup) (key value : String) :
    (Values.keys (Values.Add v key value)).Nodup := by
  rw [Values.keys_Add]
  by_cases hk : key ∈ Values.keys v
  · rw [if_pos hk]
    exact h
  · rw [if_neg hk]
    exact List.Nodup.append h (List.nodup_singleton key) (by simpa using hk)

theorem Values.nodup_keys_cond_Add {v : Values} (h : (Values.keys v).Nodup) (c : Prop)
    [Decidable c] (key value : String) :
    (Values.keys (if c then Values.Add v key value else v)).Nodup := by
  by_cases hc : c
  · rw [if_pos hc]
    exact Values.nodup_keys_Add h key value
  · rw [if_neg hc]
    exact h

theorem Values.nodup_keys_addAll (l : List (String × String)) {v : Values}
    (h : (Values.keys v).Nodup) : (Values.keys (Values.addAll v l)).Nodup := by
  induction l generalizing v with
  | nil => exact h
  | cons kv l ih =>
    rw [Values.addAll_cons]
    exact ih (Values.nodup_keys_Add h kv.1 kv.2)

theorem nodup_keys_CreateBody (p : PlanParams) : (Values.keys (CreateBody p)).Nodup := by
  unfold CreateBody
  simp only [foldl_metadata]
  apply Values.nodup_keys_addAll
  apply Values.nodup_keys_cond_Add
  apply Values.nodup_keys_cond_Add
  apply Values.nodup_keys_cond_Add
  simp [Values.keys]

theorem nodup_keys_UpdateBody (p : PlanParams) : (Values.keys (UpdateBody p)).Nodup := by
  unfold UpdateBody
  simp only [foldl_metadata]
  apply Values.nodup_keys_addAll
  apply Values.nodup_keys_cond_Add
  apply Values.nodup_keys_cond_Add
  simp [Values.keys]

theorem nodup_keys_ListBody (p : Option PlanListParams) :
    (Values.keys (ListBody p).1).Nodup := by
  cases p with
  | none => simp [ListBody, Values.keys]
  | some p =>
    rw [ListBody_some]
    apply Values.nodup_keys_cond_Add
    apply Values.nodup_keys_cond_Add
    apply Values.nodup_keys_cond_Add
    apply Values.nodup_keys_addAll
    simp [Values.keys]

/-- Two maps with the same values under every key have the same keys. -/
theorem Values.keys_perm_of_lookup_eq {v w : Values} (hv : (Values.keys v).Nodup)
    (hw : (Values.keys w).Nodup) (h : ∀ key, Values.lookup v key = Values.lookup w key) :
    (Values.keys v).Perm (Values.keys w) := by
  rw [List.perm_ext_iff_of_nodup hv hw]
  intro key
  rw [Values.mem_keys_iff, Values.mem_keys_iff, Values.Has, Values.Has, h key]

/-! ## What each operation hands to the transport -/

theorem Create_journal {σ ε : Type} (api : Api σ ε) (token : String) (params : PlanParams)
    (log : List CallRecord) (s : σ) :
    (PlanClient.Create (PlanClient.mk api.logged token) params (log, s)).2.1 =
      log ++ [CallRecord.mk "POST" "/plans" token (some (CreateBody params)) Target.plan] := rfl

theorem Update_journal {σ ε : Type} (api : Api σ ε) (token id : String) (params : PlanParams)
    (log : List CallRecord) (s : σ) :
    (PlanClient.Update (PlanClient.mk api.logged token) id params (log, s)).2.1 =
      log ++ [CallRecord.mk "POST" ("/plans/" ++ id) token (some (UpdateBody params))
        Target.plan] := rfl

theorem List_journal {σ ε : Type} (api : Api σ ε) (token : String)
    (params : Option PlanListParams) (log : List CallRecord) (s : σ) :
    (PlanClient.List (PlanClient.mk api.logged token) params (log, s)).2.2.1 =
      log ++ [CallRecord.mk "GET" "/plans" token (some (ListBody params).1)
        Target.planList] := rfl

/-! ## Claims -/

/-- C1: `Create` hands the transport a body that has the key `interval_count` exactly
when `IntervalCount > 0`, `trial_period_days` exactly when `TrialPeriod > 0` and
`statement_description` exactly when `Statement` is not empty; a key that is present
carries exactly one value, the decimal rendering of the number or the `Statement`
string. -/
theorem create_optional_fields {σ ε : Type} (api : Api σ ε) (token : String)
    (p : PlanParams) (log : List CallRecord) (s : σ) :
    (PlanClient.Create (PlanClient.mk api.logged token) p (log, s)).2.1 =
      log ++ [CallRecord.mk "POST" "/plans" token (some (CreateBody p)) Target.plan] ∧
    (Values.Has (CreateBody p) "interval_count" = true ↔ p.IntervalCount > 0) ∧
    (Values.Has (CreateBody p) "trial_period_days" = true ↔ p.TrialPeriod > 0) ∧
    (Values.Has (CreateBody p) "statement_description" = true ↔ p.Statement ≠ "") ∧
    (p.IntervalCount > 0 →
      Values.lookup (CreateBody p) "interval_count" = some [Nat.repr p.IntervalCount]) ∧
    (p.TrialPeriod > 0 →
      Values.lookup (CreateBody p) "trial_period_days" = some [Nat.repr p.TrialPeriod]) ∧
    (p.Statement ≠ "" →
      Values.lookup (CreateBody p) "statement_description" = some [p.Statement]) := by
  have h1 := lookup_CreateBody_plain p "interval_count" (by decide)
  have h2 := lookup_CreateBody_plain p "trial_period_days" (by decide)
  have h3 := lookup_CreateBody_plain p "statement_description" (by decide)
  simp only [String.reduceEq, if_false, if_true] at h1 h2 h3
  refine ⟨rfl, ?_, ?_, ?_, ?_, ?_, ?_⟩
  · rw [Values.Has, h1]
    by_cases h : p.IntervalCount > 0 <;> simp [h]
  · rw [Values.Has, h2]
    by_cases h : p.TrialPeriod > 0 <;> simp [h]
  · rw [Values.Has, h3]
    by_cases h : p.Statement = "" <;> simp [h]
  · intro h
    rw [h1, if_pos h, FormatUint_ten]
  · intro h
    rw [h2, if_pos h, FormatUint_ten]
  · intro h
    rw [h3, if_pos h]

/-- C1 at a plan with interval count 3, a trial of 14 days and the statement `GOLD`. -/
theorem create_optional_fields_witness :
    Values.lookup (CreateBody goldPlanFull) "interval_count" = some ["3"] ∧
    Values.lookup (CreateBody goldPlanFull) "trial_period_days" = some ["14"] ∧
    Values.lookup (CreateBody goldPlanFull) "statement_description" = some ["GOLD"] :=
  have h := create_optional_fields (σ := Unit) (ε := Unit)
    (Api.mk (fun _ _ _ _ _ v st => (none, v, st))) "tok" goldPlanFull [] ()
  ⟨h.2.2.2.2.1 (by decide), h.2.2.2.2.2.1 (by decide), h.2.2.2.2.2.2 (by decide)⟩

/-- C5: when `IntervalCount` and `TrialPeriod` are 0, `Statement` is empty and `Meta`
is empty or nil, the body `Create` hands to the transport has exactly the five keys
`id`, `name`, `amount`, `currency`, `interval`, each with the single value `Id`,
`Name`, the decimal rendering of `Amount`, `Currency`, `Interval`; the five fields
are not inspected, so the keys are there for empty and zero fields too. -/
theorem create_required_only {σ ε : Type} (api : Api σ ε) (token : String)
    (p : PlanParams) (log : List CallRecord) (s : σ)
    (hi : p.IntervalCount = 0) (ht : p.TrialPeriod = 0) (hs : p.Statement = "")
    (hm : p.Meta = []) :
    (PlanClient.Create (PlanClient.mk api.logged token) p (log, s)).2.1 =
      log ++ [CallRecord.mk "POST" "/plans" token (some (CreateBody p)) Target.plan] ∧
    CreateBody p =
      [("id", [p.Id]), ("name", [p.Name]), ("amount", [Nat.repr p.Amount]),
       ("currency", [p.Currency]), ("interval", [p.Interval])] ∧
    Values.keys (CreateBody p) = ["id", "name", "amount", "currency", "interval"] := by
  have hb : CreateBody p =
      [("id", [p.Id]), ("name", [p.Name]), ("amount", [Nat.repr p.Amount]),
       ("currency", [p.Currency]), ("interval", [p.Interval])] := by
    have h0 : "".utf8ByteSize = 0 := rfl
    simp [CreateBody, hi, ht, hs, hm, FormatUint_ten, h0]
  refine ⟨rfl, hb, ?_⟩
  rw [hb]
  rfl

/-- C5 at the plan `gold`, and at the plan whose every field is empty or zero. -/
theorem create_required_only_witness :
    CreateBody goldPlan =
      [("id", ["gold"]), ("name", ["Gold Plan"]), ("amount", ["1000"]),
       ("currency", ["usd"]), ("interval", ["month"])] ∧
    CreateBody {} =
      [("id", [""]), ("name", [""]), ("amount", ["0"]), ("currency", [""]),
       ("interval", [""])] :=
  ⟨(create_required_only (σ := Unit) (ε := Unit)
      (Api.mk (fun _ _ _ _ _ v st => (none, v, st))) "tok" goldPlan [] () rfl rfl rfl rfl).2.1,
   (create_required_only (σ := Unit) (ε := Unit)
      (Api.mk (fun _ _ _ _ _ v st => (none, v, st))) "tok" {} [] () rfl rfl rfl rfl).2.1⟩

/-- C2: for a metadata map (its keys pairwise distinct, as in every Go map), the
bodies of `Create` and of `Update` hold for every key `k` of `Meta` exactly one value
under `metadata[k]`, the value `Meta[k]`; a key of either body that starts with
`metadata[` is `metadata[k]` for a key `k` of `Meta`; and visiting the entries of the
map in another order gives bodies with the same values under every key. -/
theorem metadata_entries (p : PlanParams) (hm : (p.Meta.map Prod.fst).Nodup) :
    (∀ k v, (k, v) ∈ p.Meta →
      Values.lookup (CreateBody p) (metadataKey k) = some [v] ∧
      Values.lookup (UpdateBody p) (metadataKey k) = some [v]) ∧
    (∀ key, HasPrefix key "metadata[" = true →
      (Values.Has (CreateBody p) key = true ∨ Values.Has (UpdateBody p) key = true) →
      ∃ kv ∈ p.Meta, key = metadataKey kv.1) ∧
    (∀ m, m.Perm p.Meta →
      (∀ key,
        Values.lookup (CreateBody { p with Meta := m }) key =
          Values.lookup (CreateBody p) key ∧
        Values.lookup (UpdateBody { p with Meta := m }) key =
          Values.lookup (UpdateBody p) key) ∧
      (Values.keys (CreateBody { p with Meta := m })).Perm (Values.keys (CreateBody p)) ∧
      (Values.keys (UpdateBody { p with Meta := m })).Perm (Values.keys (UpdateBody p))) := by
  have hall : ∀ m, m.Perm p.Meta → ∀ key,
      Values.lookup (CreateBody { p with Meta := m }) key =
        Values.lookup (CreateBody p) key ∧
      Values.lookup (UpdateBody { p with Meta := m }) key =
        Values.lookup (UpdateBody p) key := by
    intro m hp key
    cases hk : HasPrefix key "metadata["
    · rw [lookup_CreateBody_plain _ _ hk, lookup_CreateBody_plain _ _ hk,
        lookup_UpdateBody_plain _ _ hk, lookup_UpdateBody_plain _ _ hk]
      exact ⟨rfl, rfl⟩
    · have hv : valuesFor (metadataPairs m) key = valuesFor (metadataPairs p.Meta) key := by
        by_cases hne : valuesFor (metadataPairs m) key = [] ∧
            valuesFor (metadataPairs p.Meta) key = []
        · rw [hne.1, hne.2]
        · have hex : ∃ k, key = metadataKey k := by
            by_cases h1 : valuesFor (metadataPairs m) key = []
            · obtain ⟨kv, _, e⟩ := valuesFor_metadataPairs_ne_nil (fun h2 => hne ⟨h1, h2⟩)
              exact ⟨kv.1, e⟩
            · obtain ⟨kv, _, e⟩ := valuesFor_metadataPairs_ne_nil h1
              exact ⟨kv.1, e⟩
          obtain ⟨k, rfl⟩ := hex
          rw [valuesFor_metadataPairs_key, valuesFor_metadataPairs_key, valuesFor_perm hp hm]
      rw [lookup_CreateBody_metadata _ _ hk, lookup_CreateBody_metadata _ _ hk,
        lookup_UpdateBody_metadata _ _ hk, lookup_UpdateBody_metadata _ _ hk]
      rw [hv]
      exact ⟨rfl, rfl⟩
  refine ⟨?_, ?_, ?_⟩
  · intro k v hkv
    have hv : valuesFor (metadataPairs p.Meta) (metadataKey k) = [v] := by
      rw [valuesFor_metadataPairs_key, valuesFor_of_nodup hm hkv]
    rw [lookup_CreateBody_metadata p _ (hasPrefix_metadataKey k),
      lookup_UpdateBody_metadata p _ (hasPrefix_metadataKey k), hv]
    simp
  · intro key hk h
    rw [Values.Has, Values.Has, lookup_CreateBody_metadata p _ hk,
      lookup_UpdateBody_metadata p _ hk] at h
    by_cases hv : valuesFor (metadataPairs p.Meta) key = []
    · simp [hv] at h
    · exact valuesFor_metadataPairs_ne_nil hv
  · intro m hp
    exact ⟨hall m hp,
      Values.keys_perm_of_lookup_eq (nodup_keys_CreateBody _) (nodup_keys_CreateBody _)
        (fun key => (hall m hp key).1),
      Values.keys_perm_of_lookup_eq (nodup_keys_UpdateBody _) (nodup_keys_UpdateBody _)
        (fun key => (hall m hp key).2)⟩

/-- C2 at the map `{"tier": "1", "": ""}` of `goldPlanFull`, visited in both orders. -/
theorem metadata_entries_witness :
    (goldPlanFull.Meta.map Prod.fst).Nodup ∧
    Values.lookup (CreateBody goldPlanFull) "metadata[tier]" = some ["1"] ∧
    Values.lookup (UpdateBody goldPlanFull) "metadata[]" = some [""] ∧
    Values.lookup (CreateBody { goldPlanFull with Meta := [("", ""), ("tier", "1")] })
      "metadata[tier]" = Values.lookup (CreateBody goldPlanFull) "metadata[tier]" :=
  have h := metadata_entries goldPlanFull (by decide)
  ⟨by decide, (h.1 "tier" "1" (by decide)).1, (h.1 "" "" (by decide)).2,
    ((h.2.2 [("", ""), ("tier", "1")] (List.Perm.swap _ _ _)).1 "metadata[tier]").1⟩

/-- C4: the keys of the body `Update` hands to the transport are exactly `name` when
`Name` is not empty, `statement_description` when `Statement` is not empty, and
`metadata[k]` for each key `k` of `Meta`. So the body never has the keys `amount`,
`currency`, `interval`, `id`, `interval_count`, `trial_period_days`, and with only
`Statement` set it is the single field `statement_description` with that value. -/
theorem update_body_keys {σ ε : Type} (api : Api σ ε) (token id : String)
    (p : PlanParams) (log : List CallRecord) (s : σ) :
    (PlanClient.Update (PlanClient.mk api.logged token) id p (log, s)).2.1 =
      log ++ [CallRecord.mk "POST" ("/plans/" ++ id) token (some (UpdateBody p))
        Target.plan] ∧
    (∀ key, key ∈ Values.keys (UpdateBody p) ↔
      ("name" = key ∧ p.Name ≠ "") ∨ ("statement_description" = key ∧ p.Statement ≠ "") ∨
      ∃ kv ∈ p.Meta, key = metadataKey kv.1) ∧
    (Values.Has (UpdateBody p) "amount" = false ∧
      Values.Has (UpdateBody p) "currency" = false ∧
      Values.Has (UpdateBody p) "interval" = false ∧
      Values.Has (UpdateBody p) "id" = false ∧
      Values.Has (UpdateBody p) "interval_count" = false ∧
      Values.Has (UpdateBody p) "trial_period_days" = false) ∧
    (p.Name = "" → p.Meta = [] → p.Statement ≠ "" →
      UpdateBody p = [("statement_description", [p.Statement])]) := by
  refine ⟨rfl, ?_, ?_, ?_⟩
  · intro key
    cases hk : HasPrefix key "metadata["
    · have hno : ¬ ∃ kv ∈ p.Meta, key = metadataKey kv.1 := by
        rintro ⟨kv, _, e⟩
        exact metadataKey_ne_of_not_hasPrefix hk kv.1 e.symm
      rw [Values.mem_keys_iff, Values.Has, lookup_UpdateBody_plain p _ hk]
      by_cases k0 : "name" = key
      · subst k0
        by_cases hn : p.Name = "" <;> simp [hn, hno]
      · by_cases k1 : "statement_description" = key
        · subst k1
          by_cases hn : p.Statement = "" <;> simp [hn, hno]
        · simp [k0, k1, hno]
    · obtain ⟨-, k1, -, -, -, -, -, k7, -, -, -⟩ := ne_fixed_of_hasPrefix hk
      rw [Values.mem_keys_iff, Values.Has, lookup_UpdateBody_metadata p _ hk,
        ← valuesFor_metadataPairs_ne_nil_iff]
      by_cases hv : valuesFor (metadataPairs p.Meta) key = [] <;> simp [hv, k1, k7]
  · simp [Values.Has, lookup_UpdateBody_plain p "amount" (by decide),
      lookup_UpdateBody_plain p "currency" (by decide),
      lookup_UpdateBody_plain p "interval" (by decide),
      lookup_UpdateBody_plain p "id" (by decide),
      lookup_UpdateBody_plain p "interval_count" (by decide),
      lookup_UpdateBody_plain p "trial_period_days" (by decide)]
  · intro hn hm hs
    have h0 : "".utf8ByteSize = 0 := rfl
    have h1 : p.Statement.utf8ByteSize > 0 := (utf8ByteSize_pos_iff _).mpr hs
    simp [UpdateBody, hn, hm, h0, h1, Values.Add]

/-- C4 at an update with only `Statement` set among the fields `Update` may send. -/
theorem update_body_keys_witness :
    UpdateBody statementOnly = [("statement_description", ["NEW"])] ∧
    Values.Has (UpdateBody statementOnly) "amount" = false :=
  have h := update_body_keys (σ := Unit) (ε := Unit)
    (Api.mk (fun _ _ _ _ _ v st => (none, v, st))) "tok" "gold" statementOnly [] ()
  ⟨h.2.2.2 rfl rfl (by decide), h.2.2.1.1⟩

/-- C3 fails as stated: with a filter that appends `limit=5`, `Limit = 0` still sends
a `limit` key, and `Limit = 150` sends two values under `limit`. -/
theorem list_limit_counterexample :
    limitFilter.Limit = 0 ∧
    Values.Has (ListBody (some limitFilter)).1 "limit" = true ∧
    Values.lookup (ListBody (some { limitFilter with Limit := 150 })).1 "limit" =
      some ["5", "100"] := by
  decide

/-- C3, amended: for a non-nil `PlanListParams` whose filters append nothing under the
key `limit`, the body `List` hands to the transport has no `limit` key when `Limit`
is 0 and exactly one `limit` value when `Limit > 0`, the decimal rendering of
`min(Limit, 100)`; `Limit = 150` and `Limit = 100` both encode `limit=100`. -/
theorem list_limit {σ ε : Type} (api : Api σ ε) (token : String) (p : PlanListParams)
    (log : List CallRecord) (s : σ) (hf : ∀ kv ∈ p.Filters.f, kv.1 ≠ "limit") :
    (PlanClient.List (PlanClient.mk api.logged token) (some p) (log, s)).2.2.1 =
      log ++ [CallRecord.mk "GET" "/plans" token (some (ListBody (some p)).1)
        Target.planList] ∧
    (p.Limit = 0 → Values.Has (ListBody (some p)).1 "limit" = false) ∧
    (p.Limit > 0 →
      Values.lookup (ListBody (some p)).1 "limit" = some [Nat.repr (min p.Limit 100)]) ∧
    (p.Limit = 150 → Values.lookup (ListBody (some p)).1 "limit" = some ["100"]) ∧
    (p.Limit = 100 → Values.lookup (ListBody (some p)).1 "limit" = some ["100"]) := by
  have hv : valuesFor p.Filters.f "limit" = [] := (valuesFor_eq_nil_iff _ _).mpr hf
  have hl := lookup_ListBody p "limit"
  simp only [hv, String.reduceEq, and_false, and_true, if_false, List.nil_append,
    List.append_nil] at hl
  have hpos : p.Limit > 0 →
      Values.lookup (ListBody (some p)).1 "limit" = some [Nat.repr (min p.Limit 100)] := by
    intro h
    rw [hl, if_pos h, FormatUint_ten]
    simp [entryOf]
  refine ⟨rfl, ?_, hpos, ?_, ?_⟩
  · intro h
    have h' : ¬ p.Limit > 0 := by omega
    rw [Values.Has, hl, if_neg h']
    rfl
  · intro h
    rw [hpos (by omega), h]
    rfl
  · intro h
    rw [hpos (by omega), h]
    rfl

/-- C3, amended, at `Limit = 150` with a filter on another key. -/
theorem list_limit_witness :
    Values.lookup
      (ListBody (some { Filters := { f := [("created", "7")] }, Limit := 150 })).1 "limit" =
      some ["100"] :=
  (list_limit (σ := Unit) (ε := Unit) (Api.mk (fun _ _ _ _ _ v st => (none, v, st))) "tok"
    { Filters := { f := [("created", "7")] }, Limit := 150 } [] () (by decide)).2.2.2.1 rfl

/-- C8 fails as stated: with a filter that appends `starting_after=x`, an empty `Start`
still sends a `starting_after` key, and `Start = "a"` sends two values under it. -/
theorem list_cursors_counterexample :
    cursorFilter.Start = "" ∧
    Values.Has (ListBody (some cursorFilter)).1 "starting_after" = true ∧
    Values.lookup (ListBody (some { cursorFilter with Start := "a" })).1 "starting_after" =
      some ["x", "a"] := by
  decide

/-- C8, amended: for a non-nil `PlanListParams` whose filters append nothing under the
keys `starting_after` and `ending_before`, the body `List` hands to the transport has
`starting_after` (with the single value `Start`) exactly when `Start` is not empty and
`ending_before` (with the single value `End`) exactly when `End` is not empty; the
transport is called whatever `Start` and `End` are. -/
theorem list_cursors {σ ε : Type} (api : Api σ ε) (token : String) (p : PlanListParams)
    (log : List CallRecord) (s : σ)
    (hf : ∀ kv ∈ p.Filters.f, kv.1 ≠ "starting_after" ∧ kv.1 ≠ "ending_before") :
    (PlanClient.List (PlanClient.mk api.logged token) (some p) (log, s)).2.2.1 =
      log ++ [CallRecord.mk "GET" "/plans" token (some (ListBody (some p)).1)
        Target.planList] ∧
    (Values.Has (ListBody (some p)).1 "starting_after" = true ↔ p.Start ≠ "") ∧
    (p.Start ≠ "" → Values.lookup (ListBody (some p)).1 "starting_after" = some [p.Start]) ∧
    (Values.Has (ListBody (some p)).1 "ending_before" = true ↔ p.End ≠ "") ∧
    (p.End ≠ "" → Values.lookup (ListBody (some p)).1 "ending_before" = some [p.End]) := by
  have hv1 : valuesFor p.Filters.f "starting_after" = [] :=
    (valuesFor_eq_nil_iff _ _).mpr (fun kv h => (hf kv h).1)
  have hv2 : valuesFor p.Filters.f "ending_before" = [] :=
    (valuesFor_eq_nil_iff _ _).mpr (fun kv h => (hf kv h).2)
  have h1 := lookup_ListBody p "starting_after"
  have h2 := lookup_ListBody p "ending_before"
  simp only [hv1, hv2, String.reduceEq, and_false, and_true, if_false, List.nil_append,
    List.append_nil] at h1 h2
  refine ⟨rfl, ?_, ?_, ?_, ?_⟩
  · rw [Values.Has, h1]
    by_cases h : p.Start = "" <;> simp [h, entryOf]
  · intro h
    rw [h1, if_pos h]
    simp [entryOf]
  · rw [Values.Has, h2]
    by_cases h : p.End = "" <;> simp [h, entryOf]
  · intro h
    rw [h2, if_pos h]
    simp [entryOf]

/-- C8, amended, with both cursors set. -/
theorem list_cursors_witness :
    Values.lookup (ListBody (some { Start := "plan_a", End := "plan_z" })).1
      "starting_after" = some ["plan_a"] ∧
    Values.lookup (ListBody (some { Start := "plan_a", End := "plan_z" })).1
      "ending_before" = some ["plan_z"] :=
  have h := list_cursors (σ := Unit) (ε := Unit)
    (Api.mk (fun _ _ _ _ _ v st => (none, v, st))) "tok"
    { Start := "plan_a", End := "plan_z" } [] () (by decide)
  ⟨h.2.2.1 (by decide), h.2.2.2.2 (by decide)⟩

/-- C9: `List(nil)` makes one call to the transport, `GET /plans`, with a body that is
not nil and has no key at all (no filter, no `starting_after`, no `ending_before`, no
`limit`), the same body as for a `PlanListParams` whose fields are all zero; its
error is the one the transport returns. -/
theorem list_nil {σ ε : Type} (api : Api σ ε) (token : String) (log : List CallRecord)
    (s : σ) :
    (PlanClient.List (PlanClient.mk api.logged token) none (log, s)).2.2.1 =
      log ++ [CallRecord.mk "GET" "/plans" token (some []) Target.planList] ∧
    (PlanClient.List (PlanClient.mk api token) none s).1.2 =
      (api.Call "GET" "/plans" token (some []) Target.planList {} s).1 ∧
    (ListBody none).1 = [] ∧
    (∀ key, Values.Has (ListBody none).1 key = false) ∧
    (ListBody (some {})).1 = (ListBody none).1 ∧
    (PlanClient.List (PlanClient.mk api.logged token) (some {}) (log, s)).2.2.1 =
      (PlanClient.List (PlanClient.mk api.logged token) none (log, s)).2.2.1 :=
  ⟨rfl, rfl, rfl, fun _ => rfl, rfl, rfl⟩

/-- C10: `List` writes to the caller's `PlanListParams`: with `Limit > 100` the
parameters come back with `Limit = 100`, with `Limit <= 100` they come back unchanged,
`Start` and `End` are never changed, and a second `List` with the parameters as the
first one left them builds the same body. -/
theorem list_writes_limit {σ ε : Type} (c : PlanClient σ ε) (p : PlanListParams) (s : σ) :
    (p.Limit > 100 → (PlanClient.List c (some p) s).2.1 = some { p with Limit := 100 }) ∧
    (p.Limit ≤ 100 → (PlanClient.List c (some p) s).2.1 = some p) ∧
    (∃ q, (PlanClient.List c (some p) s).2.1 = some q ∧ q.Start = p.Start ∧ q.End = p.End) ∧
    (ListBody (PlanClient.List c (some p) s).2.1).1 = (ListBody (some p)).1 := by
  have hq : (PlanClient.List c (some p) s).2.1 = some { p with Limit := min p.Limit 100 } :=
    ListBody_params p
  refine ⟨?_, ?_, ⟨_, hq, rfl, rfl⟩, ?_⟩
  · intro h
    have hm : min p.Limit 100 = 100 := by omega
    rw [hq, hm]
  · intro h
    have hm : min p.Limit 100 = p.Limit := by omega
    rw [hq, hm]
  · rw [hq, ListBody_some, ListBody_some]
    have hm : min (min p.Limit 100) 100 = min p.Limit 100 := by omega
    have hp : (min p.Limit 100 > 0) = (p.Limit > 0) := by
      apply propext
      omega
    simp only [hm, hp]

/-- C10 at `Limit = 150` and at `Limit = 20`, with both cursors set. -/
theorem list_writes_limit_witness :
    (PlanClient.List (σ := Unit) (ε := Unit)
      (PlanClient.mk (Api.mk (fun _ _ _ _ _ v st => (none, v, st))) "tok")
      (some { Start := "a", End := "b", Limit := 150 }) ()).2.1 =
      some { Start := "a", End := "b", Limit := 100 } ∧
    (PlanClient.List (σ := Unit) (ε := Unit)
      (PlanClient.mk (Api.mk (fun _ _ _ _ _ v st => (none, v, st))) "tok")
      (some { Start := "a", End := "b", Limit := 20 }) ()).2.1 =
      some { Start := "a", End := "b", Limit := 20 } :=
  ⟨(list_writes_limit (σ := Unit) (ε := Unit)
      (PlanClient.mk (Api.mk (fun _ _ _ _ _ v st => (none, v, st))) "tok")
      { Start := "a", End := "b", Limit := 150 } ()).1 (by decide),
   (list_writes_limit (σ := Unit) (ε := Unit)
      (PlanClient.mk (Api.mk (fun _ _ _ _ _ v st => (none, v, st))) "tok")
      { Start := "a", End := "b", Limit := 20 } ()).2.1 (by decide)⟩

/-- C6: each of `Create`, `Get`, `Update`, `Delete`, `List` invokes `Call` exactly
once (the journal of the transport grows by one record) and returns, as its error,
exactly what that invocation of `Call` returned, `nil` included. -/
theorem single_call_error_forwarded {σ ε : Type} (api : Api σ ε) (token id : String)
    (params : PlanParams) (lp : Option PlanListParams) (log : List CallRecord) (s : σ) :
    ((PlanClient.Create (PlanClient.mk api.logged token) params (log, s)).2.1 =
        log ++ [CallRecord.mk "POST" "/plans" token (some (CreateBody params)) Target.plan] ∧
      (PlanClient.Create (PlanClient.mk api token) params s).1.2 =
        (api.Call "POST" "/plans" token (some (CreateBody params)) Target.plan {} s).1) ∧
    ((PlanClient.Get (PlanClient.mk api.logged token) id (log, s)).2.1 =
        log ++ [CallRecord.mk "GET" ("/plans/" ++ id) token none Target.plan] ∧
      (PlanClient.Get (PlanClient.mk api token) id s).1.2 =
        (api.Call "GET" ("/plans/" ++ id) token none Target.plan {} s).1) ∧
    ((PlanClient.Update (PlanClient.mk api.logged token) id params (log, s)).2.1 =
        log ++ [CallRecord.mk "POST" ("/plans/" ++ id) token (some (UpdateBody params))
          Target.plan] ∧
      (PlanClient.Update (PlanClient.mk api token) id params s).1.2 =
        (api.Call "POST" ("/plans/" ++ id) token (some (UpdateBody params)) Target.plan {}
          s).1) ∧
    ((PlanClient.Delete (PlanClient.mk api.logged token) id (log, s)).2.1 =
        log ++ [CallRecord.mk "DELETE" ("/plans/" ++ id) token none Target.nil] ∧
      (PlanClient.Delete (PlanClient.mk api token) id s).1 =
        (api.Call "DELETE" ("/plans/" ++ id) token none Target.nil () s).1) ∧
    ((PlanClient.List (PlanClient.mk api.logged token) lp (log, s)).2.2.1 =
        log ++ [CallRecord.mk "GET" "/plans" token (some (ListBody lp).1) Target.planList] ∧
      (PlanClient.List (PlanClient.mk api token) lp s).1.2 =
        (api.Call "GET" "/plans" token (some (ListBody lp).1) Target.planList {} s).1) :=
  ⟨⟨rfl, rfl⟩, ⟨rfl, rfl⟩, ⟨rfl, rfl⟩, ⟨rfl, rfl⟩, ⟨rfl, rfl⟩⟩

/-- C7: `Delete(id)` calls the transport once with method `DELETE`, the path `/plans/`
followed by `id`, the client's token, a nil body and a nil decode target, and it
returns no error exactly when that call returns none. -/
theorem delete_call {σ ε : Type} (api : Api σ ε) (token id : String)
    (log : List CallRecord) (s : σ) :
    (PlanClient.Delete (PlanClient.mk api.logged token) id (log, s)).2.1 =
      log ++ [CallRecord.mk "DELETE" ("/plans/" ++ id) token none Target.nil] ∧
    ((PlanClient.Delete (PlanClient.mk api token) id s).1 = none ↔
      (api.Call "DELETE" ("/plans/" ++ id) token none Target.nil () s).1 = none) ∧
    (PlanClient.Delete (PlanClient.mk api token) id s).2 =
      (api.Call "DELETE" ("/plans/" ++ id) token none Target.nil () s).2.2 :=
  ⟨rfl, Iff.rfl, rfl⟩

end Stripe
